import Mathlib

/-!
Verification of the colocatron presence / task-history ledgers.

Shallow embedding of `src/project/presence.py`, `src/project/task_history.py`
and the `Week` utility of `src/project/utils.py`.  Calendar days are modelled
as integers (the proleptic Gregorian ordinal used by Python's `date`, with
`date(1,1,1) = 1`); `ONE_DAY` is `1` and `(d2 - d1).days` is `d2 - d1`.
Python `float` loads are modelled as rationals; the properties checked here do
not depend on rounding.  Fallible methods return `Except PyErr`; the `PyErr`
constructors correspond to the Python exception classes raised by the source.
Type-dispatch branches (`isinstance` checks) are resolved by the Lean types,
so the `TypeError` paths of the source are not represented.
-/

namespace Colocatron

/-- Ordinal of Python's `date(1, 1, 1)` (`date.min`), the initial
`TaskHistory.__begin_on`. -/
def dateMin : Int := 1

/-- Ordinal of Python's `date(9999, 12, 31)` (`date.max`), the sentinel stored
in `TaskHistory.__last_time` while the task has never been done. -/
def dateMax : Int := 3652059

/-- Decidable equality of `Except` values, for concrete evaluation. -/
instance {ε α : Type} [DecidableEq ε] [DecidableEq α] :
    DecidableEq (Except ε α) := fun x y =>
  match x, y with
  | .error a, .error b =>
      if h : a = b then .isTrue (by rw [h])
      else .isFalse (by intro hc; cases hc; exact h rfl)
  | .error _, .ok _ => .isFalse (by intro hc; cases hc)
  | .ok _, .error _ => .isFalse (by intro hc; cases hc)
  | .ok a, .ok b =>
      if h : a = b then .isTrue (by rw [h])
      else .isFalse (by intro hc; cases hc; exact h rfl)

/-- Exception classes raised by the embedded methods. -/
inductive PyErr where
  | beforeAbsenceBegin
  | absenceTrackingAfterBegin
  | valueError
  | beforeBegin
  | updateLoad
  | neverDone
  | unsafeRmDate
  | keyError
  deriving DecidableEq

/-- A `date | Iterable[date]` argument (the duck-typed `period` parameters). -/
inductive Period where
  | single (d : Int)
  | coll (l : List Int)
  deriving DecidableEq

/-- The days denoted by a `Period` argument, as a list. -/
def Period.days : Period → List Int
  | .single d => [d]
  | .coll l => l

/-! ## Presence (src/project/presence.py) -/

/-- State of a `Presence` instance: the private fields `__absences`,
`__absences_begin_on` and `__presences_before_begin`.  The Python `set[date]`
is modelled as a `Finset Int` (only size and membership are observable). -/
structure Presence where
  absences : Finset Int
  absences_begin_on : Int
  presences_before_begin : Int
  deriving DecidableEq

namespace Presence

/-- `Presence.__init__`: empty absence set, watermark at `start`. -/
def init (start : Int) : Presence := ⟨∅, start, 0⟩

/-- `Presence.ask_or_set_absence_check`. -/
def ask_or_set_absence_check (s : Presence) (day : Int) : Except PyErr Unit :=
  if day < s.absences_begin_on then .error .beforeAbsenceBegin else .ok ()

/-- `Presence.add_absence`.  The iterable branch of the source checks every
day before `set.update`, so the collection case validates all days first. -/
def add_absence (s : Presence) (p : Period) : Except PyErr Presence :=
  match p with
  | .single d =>
      if d < s.absences_begin_on then .error .beforeAbsenceBegin
      else .ok { s with absences := insert d s.absences }
  | .coll l =>
      if l.all (fun d => decide (s.absences_begin_on ≤ d)) then
        .ok { s with absences := s.absences ∪ l.toFinset }
      else .error .beforeAbsenceBegin

/-- `Presence.rm_absence`.  The iterable branch accumulates a validated
`buffer` and then subtracts it. -/
def rm_absence (s : Presence) (p : Period) : Except PyErr Presence :=
  match p with
  | .single d =>
      if d < s.absences_begin_on then .error .beforeAbsenceBegin
      else .ok { s with absences := s.absences.erase d }
  | .coll l =>
      if l.all (fun d => decide (s.absences_begin_on ≤ d)) then
        .ok { s with absences := s.absences \ l.toFinset }
      else .error .beforeAbsenceBegin

/-- `Presence.on_period` (single-day form). -/
def on_period (s : Presence) (day : Int) : Except PyErr Bool :=
  if day < s.absences_begin_on then .error .beforeAbsenceBegin
  else .ok (decide (day ∉ s.absences))

/-- `Presence.not_on_period` (single-day form). -/
def not_on_period (s : Presence) (day : Int) : Except PyErr Bool :=
  if day < s.absences_begin_on then .error .beforeAbsenceBegin
  else .ok (decide (day ∈ s.absences))

/-- `Presence.days_nb_until`: number of presence days up to `day` included. -/
def days_nb_until (s : Presence) (day : Int) : Except PyErr Int :=
  if day < s.absences_begin_on then .error .beforeAbsenceBegin
  else .ok ((day - s.absences_begin_on) + 1
    - ((s.absences.filter (fun a => a ≤ day)).card : Int)
    + s.presences_before_begin)

/-- `Presence.set_presence_nb_between` (the compaction operation): all checks
of the source in order, then the three-field update. -/
def set_presence_nb_between (s : Presence) (untl : Int) (pres_nb : Int)
    (start : Option Int) : Except PyErr Presence :=
  if untl < s.absences_begin_on then .error .valueError
  else
    match start with
    | some st =>
        if untl < st then .error .valueError
        else if s.absences_begin_on < st then .error .absenceTrackingAfterBegin
        else if st < s.absences_begin_on ∧ s.presences_before_begin ≠ 0 then
          .error .valueError
        else
          .ok { absences := s.absences.filter (fun day => ¬ day ≤ untl),
                absences_begin_on := untl + 1,
                presences_before_begin :=
                  if st < s.absences_begin_on then pres_nb
                  else s.presences_before_begin + pres_nb }
    | none =>
        .ok { absences := s.absences.filter (fun day => ¬ day ≤ untl),
              absences_begin_on := untl + 1,
              presences_before_begin := pres_nb }

end Presence

/-! ## TaskHistory (src/project/task_history.py)

The Python `dict[date, float]` keeps insertion order; it is modelled as an
association list with distinct keys, `setdefault` appending at the end. -/

/-- Dict entries: `(date, load)` pairs. -/
abbrev Entry := Int × Rat

/-- `day in dict`. -/
def hasKey (ds : List Entry) (d : Int) : Bool := ds.any (fun p => p.1 == d)

/-- `dict[day]` (first matching entry, unique in reachable states). -/
def lookupKey (ds : List Entry) (d : Int) : Option Rat :=
  (ds.find? (fun p => p.1 == d)).map Prod.snd

/-- `del dict[day]` (after a successful membership check). -/
def eraseKey (ds : List Entry) (d : Int) : List Entry :=
  ds.filter (fun p => p.1 != d)

/-- `dict.setdefault(day, load)`: append at the end when the key is absent. -/
def setdefault (ds : List Entry) (d : Int) (v : Rat) : List Entry :=
  if hasKey ds d then ds else ds ++ [(d, v)]

/-- Python's `max` over a non-empty iterable of dates (`[]` is unreachable;
the sentinel keeps the function total). -/
def listMax : List Int → Int
  | [] => dateMax
  | d :: r => r.foldl max d

/-- Python's `max` over the keys of a non-empty dict. -/
def maxKey (ds : List Entry) : Int := listMax (ds.map Prod.fst)

/-- `set(period)` for the batch-removal path: Python builds a `set` from the
iterated days and then iterates it.  The embedding fixes the (unspecified)
set-iteration order to first-occurrence order of the input. -/
def dedupFirst (l : List Int) : List Int :=
  l.foldl (fun acc d => if d ∈ acc then acc else acc ++ [d]) []

/-- State of a `TaskHistory` instance: its six private fields. -/
structure TaskHistory where
  ever_done : Bool
  begin_on : Int
  n_until_begin : Int
  load_until_begin : Rat
  last_time : Int
  dates : List Entry
  deriving DecidableEq

namespace TaskHistory

/-- `TaskHistory.__init__`. -/
def init : TaskHistory := ⟨false, dateMin, 0, 0, dateMax, []⟩

/-- `TaskHistory.set_date_check`. -/
def set_date_check (t : TaskHistory) (day : Int) : Except PyErr Unit :=
  if day < t.begin_on then .error .beforeBegin else .ok ()

/-- `TaskHistory.add_date_check`: watermark check, then re-add-with-other-load
check against the stored per-day load. -/
def add_date_check (t : TaskHistory) (day : Int) (load : Rat) :
    Except PyErr Unit :=
  if day < t.begin_on then .error .beforeBegin
  else
    match lookupKey t.dates day with
    | some stored => if load ≠ stored then .error .updateLoad else .ok ()
    | none => .ok ()

/-- The `for day in period: self.add_date_check(day=day, load=load)` loop. -/
def add_date_check_all (t : TaskHistory) (days : List Int) (load : Rat) :
    Except PyErr Unit :=
  match days with
  | [] => .ok ()
  | d :: r =>
      match t.add_date_check d load with
      | .error e => .error e
      | .ok _ => t.add_date_check_all r load

/-- `TaskHistory.add_date`. -/
def add_date (t : TaskHistory) (p : Period) (load : Rat) :
    Except PyErr TaskHistory :=
  match p with
  | .single day =>
      match t.add_date_check day load with
      | .error e => .error e
      | .ok _ =>
          let t1 :=
            if ¬ t.ever_done then { t with last_time := day, ever_done := true }
            else if t.last_time < day then { t with last_time := day }
            else t
          .ok { t1 with dates := setdefault t1.dates day load }
  | .coll days =>
      if days.length = 0 then .ok t
      else
        let single_day_load := load / (days.length : Rat)
        match t.add_date_check_all days load with
        | .error e => .error e
        | .ok _ =>
            let potential := listMax days
            let t1 :=
              if ¬ t.ever_done then
                { t with ever_done := true, last_time := potential }
              else if t.last_time < potential then { t with last_time := potential }
              else t
            .ok { t1 with
                  dates := days.foldl (fun ds d => setdefault ds d single_day_load)
                    t1.dates }

/-- The property `TaskHistory.last_time` (raises `NeverDoneError` when the
task was never done). -/
def last_time_q (t : TaskHistory) : Except PyErr Int :=
  if ¬ t.ever_done then .error .neverDone else .ok t.last_time

/-- `TaskHistory.days_nb_until`: performs no watermark check. -/
def days_nb_until (t : TaskHistory) (day : Int) : Int :=
  ((t.dates.filter (fun p => decide (p.1 ≤ day))).length : Int) + t.n_until_begin

/-- `TaskHistory.load_until`: performs no watermark check. -/
def load_until (t : TaskHistory) (day : Int) : Rat :=
  (t.dates.map (fun p => if p.1 ≤ day then p.2 else 0)).sum + t.load_until_begin

/-- `TaskHistory.rm_date_check`. -/
def rm_date_check (t : TaskHistory) (day : Int) : Except PyErr Unit :=
  if day < t.begin_on then .error .beforeBegin
  else if day = t.last_time ∧ 0 < t.n_until_begin
      ∧ t.dates.all (fun p => p.1 == t.last_time) then
    .error .unsafeRmDate
  else .ok ()

/-- Single-date branch of `TaskHistory.rm_date`.  `del self.__dates[period]`
raises `KeyError` (before mutating) when the key is absent. -/
def rm_date_single (t : TaskHistory) (day : Int) : Except PyErr TaskHistory :=
  match t.rm_date_check day with
  | .error e => .error e
  | .ok _ =>
      if ¬ hasKey t.dates day then .error .keyError
      else
        let ds := eraseKey t.dates day
        if day = t.last_time then
          if ds ≠ [] then .ok { t with dates := ds, last_time := maxKey ds }
          else .ok { t with dates := ds, ever_done := false, last_time := dateMax }
        else .ok { t with dates := ds }

/-- The `for day in days_to_delete: del self.__dates[day]` loop: deletes
sequentially and stops at the first missing key, keeping prior deletions. -/
def delLoop (ds : List Entry) (days : List Int) : List Entry × Option PyErr :=
  match days with
  | [] => (ds, none)
  | d :: r => if hasKey ds d then delLoop (eraseKey ds d) r else (ds, some .keyError)

/-- The `last_time` maintenance block at the end of the iterable branch of
`TaskHistory.rm_date`, applied after all deletions succeeded. -/
def rm_date_finish (t : TaskHistory) (dtd : List Int) (ds : List Entry) :
    TaskHistory :=
  if t.last_time ∈ dtd then
    if ds ≠ [] then { t with dates := ds, last_time := maxKey ds }
    else { t with dates := ds, ever_done := false, last_time := dateMax }
  else { t with dates := ds }

/-- Run semantics of the iterable branch of `TaskHistory.rm_date`: returns the
state after the call together with the exception it raises, if any.  A partial
mutation (some days deleted before a `KeyError`) is observable here. -/
def rm_date_list_run (t : TaskHistory) (period : List Int) :
    TaskHistory × Option PyErr :=
  if ¬ period.all (fun d => decide (t.begin_on ≤ d)) then (t, some .beforeBegin)
  else
    let dtd := dedupFirst period
    if t.last_time ∈ dtd ∧ 0 < t.n_until_begin
        ∧ t.dates.all (fun p => p.1 ∈ dtd) then
      (t, some .unsafeRmDate)
    else
      match delLoop t.dates dtd with
      | (ds, some e) => ({ t with dates := ds }, some e)
      | (ds, none) => (t.rm_date_finish dtd ds, none)

/-- `TaskHistory.rm_date`, as an exception-or-result view of the run
semantics. -/
def rm_date (t : TaskHistory) (p : Period) : Except PyErr TaskHistory :=
  match p with
  | .single d => t.rm_date_single d
  | .coll l =>
      match t.rm_date_list_run l with
      | (s, none) => .ok s
      | (_, some e) => .error e

/-- `start`-argument checks of `TaskHistory.set_situation_check`. -/
def start_check (t : TaskHistory) (untl : Int) (start : Option Int) :
    Except PyErr Unit :=
  match start with
  | none => .ok ()
  | some st =>
      if untl < st then .error .valueError
      else if t.begin_on < st then .error .valueError
      else if st < t.begin_on ∧ t.n_until_begin ≠ 0 ∧ t.load_until_begin ≠ 0 then
        .error .beforeBegin
      else .ok ()

/-- `TaskHistory.set_situation_check`. -/
def set_situation_check (t : TaskHistory) (untl n_days : Int)
    (ltb start : Option Int) : Except PyErr Unit :=
  if untl < t.begin_on then .error .valueError
  else
    match ltb with
    | none =>
        if 0 < n_days ∧ t.ever_done = false then .error .valueError
        else t.start_check untl start
    | some l =>
        if untl < l then .error .valueError
        else if n_days = 0 then .error .valueError
        else t.start_check untl start

/-- `TaskHistory.set_situation_on_period` (`ltb` is the
`last_time_between_start_and_until` argument). -/
def set_situation_on_period (t : TaskHistory) (untl n_days : Int) (load : Rat)
    (ltb start : Option Int) : Except PyErr TaskHistory :=
  match t.set_situation_check untl n_days ltb start with
  | .error e => .error e
  | .ok _ =>
      let n' := match start with | none => n_days | some _ => t.n_until_begin + n_days
      let load' := match start with
        | none => load
        | some _ => t.load_until_begin + load
      let ed : Bool × Int := match ltb with
        | some l =>
            if t.ever_done then
              (true, if t.last_time < l then l else t.last_time)
            else if 0 < n_days then (true, l)
            else (t.ever_done, t.last_time)
        | none => (t.ever_done, t.last_time)
      let ds := t.dates.filter (fun p => decide (untl < p.1))
      if n' = 0 ∧ ds = [] then
        .ok ⟨false, untl + 1, n', load', dateMax, ds⟩
      else
        .ok ⟨ed.1, untl + 1, n', load', ed.2, ds⟩

/-- Modelled from the spec: `TaskHistory.forward_begin_to`'s body in
`src/project/task_history.py` is only `raise NotImplementedError`; the
behaviour is taken from spec section 4.2: "raises `start` to `week`, dropping
all weeks strictly before it. Rejects if `week < start`" (the rejection error
being the ledger's before-start error). -/
def forward_begin_to (t : TaskHistory) (day : Int) : Except PyErr TaskHistory :=
  if day < t.begin_on then .error .beforeBegin
  else .ok { t with begin_on := day,
                    dates := t.dates.filter (fun p => decide (day ≤ p.1)) }

end TaskHistory

/-! ## Week (src/project/utils.py)

`Week.__init__` builds its `__monday` field with
`datetime.strptime(f"{year}-{week_nb}-0", "%Y-%W-%w")` and `Week.week_of_day`
feeds it `int(day.strftime("%W"))`.  The embedding reproduces the proleptic
Gregorian calendar of Python's `date` (ordinals, weekday, `%W`) and CPython's
`_strptime` computation for the `%Y-%W-%w` combination: `%w` value `0`
(Sunday) is converted to Monday-based weekday `6`, and for week `W` the day
of year is `1 + (7 - first_weekday) % 7 + 7*(W - 1) + 6` (for `W = 0` it is
`1 + 6 - first_weekday`; both are ≥ 1, so the negative-julian correction of
`_strptime` never triggers here). -/

/-- A calendar date `(year, month, day)` as in Python's `datetime.date`. -/
structure PyDate where
  year : Int
  month : Int
  day : Int
  deriving DecidableEq

/-- Gregorian leap-year test. -/
def isLeap (y : Int) : Bool := (y % 4 == 0 && y % 100 != 0) || y % 400 == 0

/-- Days in the months strictly before month `m` of year `y`. -/
def daysBeforeMonth (y m : Int) : Int :=
  (if m = 1 then 0
   else if m = 2 then 31
   else if m = 3 then 59
   else if m = 4 then 90
   else if m = 5 then 120
   else if m = 6 then 151
   else if m = 7 then 181
   else if m = 8 then 212
   else if m = 9 then 243
   else if m = 10 then 273
   else if m = 11 then 304
   else 334)
  + (if 2 < m ∧ isLeap y then 1 else 0)

/-- Days strictly before January 1st of year `y` (`date(1,1,1)` has ordinal
1). -/
def daysBeforeYear (y : Int) : Int :=
  365 * (y - 1) + (y - 1) / 4 - (y - 1) / 100 + (y - 1) / 400

/-- Python's `date.toordinal()`. -/
def toOrdinal (d : PyDate) : Int :=
  daysBeforeYear d.year + daysBeforeMonth d.year d.month + d.day

/-- Python's `date.weekday()`: 0 = Monday … 6 = Sunday. -/
def weekdayMon (d : PyDate) : Int := (toOrdinal d - 1) % 7

/-- 0-based day of the year (`tm_yday`). -/
def yday0 (d : PyDate) : Int := toOrdinal d - toOrdinal ⟨d.year, 1, 1⟩

/-- `int(day.strftime("%W"))`: Monday-first week number of the year. -/
def strftimeW (d : PyDate) : Int := (yday0 d + 7 - weekdayMon d) / 7

/-- Monday-based weekday of January 1st of year `y`. -/
def firstWeekday (y : Int) : Int := (toOrdinal ⟨y, 1, 1⟩ - 1) % 7

/-- Ordinal of `datetime.strptime(f"{y}-{W}-0", "%Y-%W-%w").date()`, as
computed by CPython's `_strptime` (`%w` `0` = Sunday, Monday-based `6`). -/
def strptimeYWSunday (y W : Int) : Int :=
  let fw := firstWeekday y
  let julian := if W = 0 then 1 + 6 - fw else 1 + (7 - fw) % 7 + 7 * (W - 1) + 6
  toOrdinal ⟨y, 1, 1⟩ + julian - 1

/-- State of a `Week` instance: its `__monday` field, stored as an ordinal. -/
structure Week where
  monday : Int
  deriving DecidableEq

namespace Week

/-- `Week.__init__(year, week_nb)`. -/
def mkWeek (year week_nb : Int) : Week := ⟨strptimeYWSunday year week_nb⟩

/-- `Week.week_of_day`. -/
def week_of_day (d : PyDate) : Week := mkWeek d.year (strftimeW d)

/-- `Week.sunday`: `self.__monday + 6 * ONE_DAY`. -/
def sunday (w : Week) : Int := w.monday + 6

/-- `Week.__contains__`: `self.__monday <= day <= self.sunday`. -/
def containsDay (w : Week) (d : PyDate) : Bool :=
  w.monday ≤ toOrdinal d && toOrdinal d ≤ w.sunday

end Week

/-! ## Reachable ledger states -/

/-- `Presence` states reachable from construction by successful calls of the
three mutating operations.  All `Presence` mutations validate every input
before touching any field, so a raising call leaves the state unchanged and
this predicate also covers histories containing raising calls. -/
inductive PresenceReach : Presence → Prop where
  | init (start : Int) : PresenceReach (Presence.init start)
  | add_absence {s s' : Presence} {p : Period} : PresenceReach s →
      s.add_absence p = .ok s' → PresenceReach s'
  | rm_absence {s s' : Presence} {p : Period} : PresenceReach s →
      s.rm_absence p = .ok s' → PresenceReach s'
  | compact {s s' : Presence} {u n : Int} {st : Option Int} : PresenceReach s →
      s.set_presence_nb_between u n st = .ok s' → PresenceReach s'

/-- `TaskHistory` states reachable from the empty history by successful
(non-raising) calls of the three mutating operations, with nonnegative
`n_days` arguments. -/
inductive TaskReach : TaskHistory → Prop where
  | init : TaskReach TaskHistory.init
  | add_date {t t' : TaskHistory} {p : Period} {load : Rat} : TaskReach t →
      t.add_date p load = .ok t' → TaskReach t'
  | rm_date {t t' : TaskHistory} {p : Period} : TaskReach t →
      t.rm_date p = .ok t' → TaskReach t'
  | set_situation {t t' : TaskHistory} {u n : Int} {load : Rat}
      {ltb st : Option Int} : TaskReach t → 0 ≤ n →
      t.set_situation_on_period u n load ltb st = .ok t' → TaskReach t'

/-- Inductive invariant of reachable `TaskHistory` states: `n_until_begin` is
nonnegative, `ever_done` tracks the existence of evidence, `last_time` is the
largest recorded day whenever any day is recorded, and when `ever_done` holds
with no recorded day, `last_time` lies strictly below the watermark. -/
def TaskInv (t : TaskHistory) : Prop :=
  0 ≤ t.n_until_begin ∧
  (t.ever_done = true ↔ (t.dates ≠ [] ∨ 0 < t.n_until_begin)) ∧
  (∀ p ∈ t.dates, p.1 ≤ t.last_time) ∧
  (t.ever_done = true → t.dates ≠ [] → ∃ p ∈ t.dates, p.1 = t.last_time) ∧
  (t.ever_done = true → t.dates = [] → t.last_time < t.begin_on)

/-! ## Auxiliary lemmas -/

theorem foldl_max_le (l : List Int) (a : Int) : a ≤ l.foldl max a := by
  induction l generalizing a with
  | nil => exact le_refl a
  | cons d r ih => exact le_trans (le_max_left a d) (ih (max a d))

theorem le_foldl_max (l : List Int) (a x : Int) (h : x ∈ l) :
    x ≤ l.foldl max a := by
  induction l generalizing a with
  | nil => cases h
  | cons d r ih =>
      rcases List.mem_cons.mp h with rfl | hr
      · exact le_trans (le_max_right a x) (foldl_max_le r (max a x))
      · exact ih (max a d) hr

theorem foldl_max_mem (l : List Int) (a : Int) :
    l.foldl max a = a ∨ l.foldl max a ∈ l := by
  induction l generalizing a with
  | nil => exact Or.inl rfl
  | cons d r ih =>
      rcases ih (max a d) with h | h
      · rcases max_choice a d with hm | hm
        · exact Or.inl (by rw [List.foldl_cons, h, hm])
        · refine Or.inr ?_
          have he : List.foldl max a (d :: r) = d := by rw [List.foldl_cons, h, hm]
          rw [he]
          exact List.mem_cons_self d r
      · exact Or.inr (List.mem_cons_of_mem d h)

theorem foldl_max_absorb (l : List Int) (a b : Int) :
    l.foldl max (max a b) = max a (l.foldl max b) := by
  induction l generalizing b with
  | nil => rfl
  | cons c r ih => simpa [List.foldl_cons, max_assoc] using ih (max b c)

theorem foldl_max_eq_max_listMax (l : List Int) (a : Int) (h : l ≠ []) :
    l.foldl max a = max a (listMax l) := by
  match l with
  | d :: r => simpa [List.foldl_cons, listMax] using foldl_max_absorb r a d

theorem listMax_mem (l : List Int) (h : l ≠ []) : listMax l ∈ l := by
  match l with
  | d :: r =>
      rcases foldl_max_mem r d with hm | hm
      · show r.foldl max d ∈ d :: r
        rw [hm]
        exact List.mem_cons_self d r
      · exact List.mem_cons_of_mem d hm

theorem le_listMax (l : List Int) (x : Int) (h : x ∈ l) : x ≤ listMax l := by
  match l with
  | d :: r =>
      rcases List.mem_cons.mp h with rfl | hr
      · simpa [listMax] using foldl_max_le r x
      · simpa [listMax] using le_foldl_max r d x hr

theorem le_maxKey (ds : List Entry) (p : Entry) (h : p ∈ ds) :
    p.1 ≤ maxKey ds :=
  le_listMax _ _ (List.mem_map_of_mem Prod.fst h)

theorem maxKey_mem (ds : List Entry) (h : ds ≠ []) :
    ∃ p ∈ ds, p.1 = maxKey ds := by
  have hne : ds.map Prod.fst ≠ [] := by simpa using h
  have := listMax_mem (ds.map Prod.fst) hne
  rcases List.mem_map.mp this with ⟨p, hp, he⟩
  exact ⟨p, hp, he⟩

theorem hasKey_iff (ds : List Entry) (d : Int) :
    hasKey ds d = true ↔ ∃ p ∈ ds, p.1 = d := by
  simp [hasKey, List.any_eq_true, beq_iff_eq]

theorem hasKey_eq_false_iff (ds : List Entry) (d : Int) :
    hasKey ds d = false ↔ ∀ p ∈ ds, p.1 ≠ d := by
  simp [hasKey, List.any_eq_false, beq_iff_eq]

theorem mem_eraseKey (ds : List Entry) (d : Int) (p : Entry) :
    p ∈ eraseKey ds d ↔ p ∈ ds ∧ p.1 ≠ d := by
  simp [eraseKey, List.mem_filter, bne_iff_ne]

theorem lookupKey_eq_none (ds : List Entry) (d : Int)
    (h : hasKey ds d = false) : lookupKey ds d = none := by
  rw [hasKey_eq_false_iff] at h
  have hf : List.find? (fun p => p.1 == d) ds = none := by
    rw [List.find?_eq_none]
    intro p hp
    simpa [beq_iff_eq] using h p hp
  simp [lookupKey, hf]

theorem card_filter_le_split (A : Finset Int) (D d : Int) (h : D ≤ d) :
    (A.filter (fun a => a ≤ d)).card
      = (A.filter (fun a => a ≤ D)).card
        + ((A.filter (fun a => ¬ a ≤ D)).filter (fun a => a ≤ d)).card := by
  have hsplit := Finset.filter_card_add_filter_neg_card_eq_card
    (s := A.filter (fun a => a ≤ d)) (p := fun a => a ≤ D)
  have h1 : (A.filter (fun a => a ≤ d)).filter (fun a => a ≤ D)
      = A.filter (fun a => a ≤ D) := by
    rw [Finset.filter_filter]
    exact Finset.filter_congr (by intro x _; constructor <;> (intro hx; omega))
  have h2 : (A.filter (fun a => a ≤ d)).filter (fun a => ¬ a ≤ D)
      = (A.filter (fun a => ¬ a ≤ D)).filter (fun a => a ≤ d) := by
    rw [Finset.filter_filter, Finset.filter_filter]
    exact Finset.filter_congr (by intro x _; constructor <;> (intro hx; omega))
  rw [h1, h2] at hsplit
  omega

theorem delLoop_ok_eq (days : List Int) (ds ds' : List Entry)
    (h : TaskHistory.delLoop ds days = (ds', none)) :
    ds' = ds.filter (fun p => decide (p.1 ∉ days)) := by
  induction days generalizing ds with
  | nil =>
      simp only [TaskHistory.delLoop] at h
      cases h
      simp
  | cons d r ih =>
      simp only [TaskHistory.delLoop] at h
      by_cases hk : hasKey ds d
      · rw [if_pos hk] at h
        have := ih (eraseKey ds d) h
        rw [this, eraseKey, List.filter_filter]
        apply List.filter_congr
        intro p _
        rcases Decidable.em (p.1 = d) with h1 | h1 <;>
          rcases Decidable.em (p.1 ∈ r) with h2 | h2 <;> simp [h1, h2]
      · rw [if_neg hk] at h
        cases h

theorem add_date_check_all_ok (t : TaskHistory) (days : List Int) (load : Rat)
    (h : t.add_date_check_all days load = .ok ()) :
    ∀ d ∈ days, t.add_date_check d load = .ok () := by
  induction days with
  | nil => intro d hd; cases hd
  | cons d r ih =>
      intro x hx
      simp only [TaskHistory.add_date_check_all] at h
      rcases he : t.add_date_check d load with e | u
      · rw [he] at h; cases h
      · rw [he] at h
        rcases List.mem_cons.mp hx with rfl | hr
        · rw [he]
        · exact ih h x hr

theorem add_date_check_all_of (t : TaskHistory) (days : List Int) (load : Rat)
    (h : ∀ d ∈ days, t.add_date_check d load = .ok ()) :
    t.add_date_check_all days load = .ok () := by
  induction days with
  | nil => rfl
  | cons d r ih =>
      simp only [TaskHistory.add_date_check_all]
      rw [h d (List.mem_cons_self d r)]
      exact ih (fun x hx => h x (List.mem_cons_of_mem d hx))

theorem add_date_check_ok_le (t : TaskHistory) (d : Int) (load : Rat)
    (h : t.add_date_check d load = .ok ()) : t.begin_on ≤ d := by
  simp only [TaskHistory.add_date_check] at h
  by_cases hlt : d < t.begin_on
  · rw [if_pos hlt] at h; cases h
  · omega

theorem lookupKey_setdefault_of_some (ds : List Entry) (x d : Int) (v w : Rat)
    (h : lookupKey ds d = some v) :
    lookupKey (setdefault ds x w) d = some v := by
  unfold setdefault
  by_cases hk : hasKey ds x
  · rw [if_pos hk]; exact h
  · rw [if_neg hk]
    simp only [lookupKey] at h ⊢
    rw [List.find?_append]
    rcases hf : List.find? (fun p => p.1 == d) ds with _ | p
    · rw [hf] at h; cases h
    · rw [hf] at h
      simp [h, hf]

theorem lookupKey_foldl_setdefault_of_some (days : List Int)
    (ds : List Entry) (d : Int) (v w : Rat) (h : lookupKey ds d = some v) :
    lookupKey (days.foldl (fun ds x => setdefault ds x w) ds) d = some v := by
  induction days generalizing ds with
  | nil => exact h
  | cons x r ih =>
      simp only [List.foldl_cons]
      exact ih (setdefault ds x w) (lookupKey_setdefault_of_some ds x d v w h)

theorem hasKey_setdefault_other (ds : List Entry) (x d : Int) (w : Rat)
    (hne : d ≠ x) (h : hasKey ds d = false) :
    hasKey (setdefault ds x w) d = false := by
  unfold setdefault
  by_cases hk : hasKey ds x
  · rw [if_pos hk]; exact h
  · rw [if_neg hk]
    rw [hasKey_eq_false_iff] at h ⊢
    intro p hp
    rcases List.mem_append.mp hp with hp | hp
    · exact h p hp
    · rcases List.mem_singleton.mp hp with rfl
      exact Ne.symm hne

theorem lookupKey_setdefault_new (ds : List Entry) (d : Int) (v : Rat)
    (h : hasKey ds d = false) :
    lookupKey (setdefault ds d v) d = some v := by
  unfold setdefault
  rw [if_neg (by simp [h])]
  have hf : List.find? (fun p => p.1 == d) ds = none := by
    rw [List.find?_eq_none]
    intro p hp
    rw [hasKey_eq_false_iff] at h
    simpa [beq_iff_eq] using h p hp
  simp [lookupKey, List.find?_append, hf]

theorem lookupKey_foldl_setdefault_mem (days : List Int) (ds : List Entry)
    (d : Int) (v : Rat) (hd : d ∈ days) (h : hasKey ds d = false) :
    lookupKey (days.foldl (fun ds x => setdefault ds x v) ds) d = some v := by
  induction days generalizing ds with
  | nil => cases hd
  | cons x r ih =>
      simp only [List.foldl_cons]
      by_cases hdx : d = x
      · subst hdx
        exact lookupKey_foldl_setdefault_of_some r _ d v v
          (lookupKey_setdefault_new ds d v h)
      · rcases List.mem_cons.mp hd with rfl | hr
        · exact absurd rfl hdx
        · exact ih (setdefault ds x v) hr (hasKey_setdefault_other ds x d v hdx h)

theorem mem_foldl_setdefault (days : List Int) (ds : List Entry) (v : Rat)
    (p : Entry) (h : p ∈ days.foldl (fun ds x => setdefault ds x v) ds) :
    p ∈ ds ∨ p.1 ∈ days := by
  induction days generalizing ds with
  | nil => exact Or.inl h
  | cons x r ih =>
      simp only [List.foldl_cons] at h
      rcases ih (setdefault ds x v) h with hm | hm
      · unfold setdefault at hm
        by_cases hk : hasKey ds x
        · rw [if_pos hk] at hm; exact Or.inl hm
        · rw [if_neg hk] at hm
          rcases List.mem_append.mp hm with hm | hm
          · exact Or.inl hm
          · rcases List.mem_singleton.mp hm with rfl
            exact Or.inr (List.mem_cons_self x r)
      · exact Or.inr (List.mem_cons_of_mem x hm)

theorem key_mem_foldl_setdefault (days : List Int) (ds : List Entry) (v : Rat)
    (d : Int) (hd : d ∈ days ∨ ∃ p ∈ ds, p.1 = d) :
    ∃ p ∈ days.foldl (fun ds x => setdefault ds x v) ds, p.1 = d := by
  induction days generalizing ds with
  | nil =>
      rcases hd with hd | hd
      · cases hd
      · exact hd
  | cons x r ih =>
      simp only [List.foldl_cons]
      have hpres : (∃ p ∈ ds, p.1 = d) → ∃ p ∈ setdefault ds x v, p.1 = d := by
        rintro ⟨p, hp, he⟩
        refine ⟨p, ?_, he⟩
        unfold setdefault
        by_cases hk : hasKey ds x
        · rw [if_pos hk]; exact hp
        · rw [if_neg hk]; exact List.mem_append.mpr (Or.inl hp)
      rcases hd with hd | hd
      · rcases List.mem_cons.mp hd with rfl | hr
        · refine ih _ (Or.inr ?_)
          unfold setdefault
          by_cases hk : hasKey ds d
          · rw [if_pos hk]
            exact (hasKey_iff ds d).mp hk
          · rw [if_neg hk]
            exact ⟨(d, v), List.mem_append.mpr (Or.inr (List.mem_singleton_self _)),
              rfl⟩
        · exact ih _ (Or.inl hr)
      · exact ih _ (Or.inr (hpres hd))

theorem mem_foldl_setdefault_of_mem (days : List Int) (ds : List Entry)
    (v : Rat) (p : Entry) (h : p ∈ ds) :
    p ∈ days.foldl (fun ds x => setdefault ds x v) ds := by
  induction days generalizing ds with
  | nil => exact h
  | cons x r ih =>
      simp only [List.foldl_cons]
      refine ih (setdefault ds x v) ?_
      unfold setdefault
      by_cases hk : hasKey ds x
      · rw [if_pos hk]; exact h
      · rw [if_neg hk]; exact List.mem_append.mpr (Or.inl h)

theorem eraseKey_eq_nil_all (ds : List Entry) (d : Int)
    (h : eraseKey ds d = []) : ∀ p ∈ ds, p.1 = d := by
  intro p hp
  by_contra hne
  have : p ∈ eraseKey ds d := (mem_eraseKey ds d p).mpr ⟨hp, hne⟩
  rw [h] at this
  cases this

theorem filter_gt_eq_nil_all (ds : List Entry) (u : Int)
    (h : ds.filter (fun p => decide (u < p.1)) = []) :
    ∀ p ∈ ds, p.1 ≤ u := by
  intro p hp
  by_contra hgt
  have hmem : p ∈ ds.filter (fun p => decide (u < p.1)) :=
    List.mem_filter.mpr ⟨hp, by simpa using not_le.mp hgt⟩
  rw [h] at hmem
  cases hmem

/-- The invariant holds for the empty history. -/
theorem task_inv_init : TaskInv TaskHistory.init := by
  refine ⟨le_refl _, by simp [TaskHistory.init], ?_, ?_, ?_⟩ <;>
    simp [TaskHistory.init]

/-- The invariant is preserved by successful `add_date` calls. -/
theorem task_inv_add_date (t t' : TaskHistory) (p : Period) (load : Rat)
    (hI : TaskInv t) (hok : t.add_date p load = .ok t') : TaskInv t' := by
  obtain ⟨hA, hB, hC, hD, hE⟩ := hI
  cases p with
  | single day =>
      simp only [TaskHistory.add_date] at hok
      rcases hc : t.add_date_check day load with e | uu
      · rw [hc] at hok; cases hok
      · rw [hc] at hok
        have hday : t.begin_on ≤ day := add_date_check_ok_le t day load hc
        have hkey : ∃ q ∈ setdefault t.dates day load, q.1 = day :=
          key_mem_foldl_setdefault [day] t.dates load day
            (Or.inl (List.mem_singleton_self day))
        have hne : setdefault t.dates day load ≠ [] := by
          rcases hkey with ⟨q, hq, _⟩
          intro hnil
          rw [hnil] at hq
          cases hq
        have hmem : ∀ q ∈ setdefault t.dates day load, q ∈ t.dates ∨ q.1 = day := by
          intro q hq
          rcases mem_foldl_setdefault [day] t.dates load q hq with h | h
          · exact Or.inl h
          · exact Or.inr (List.mem_singleton.mp h)
        have hsup : ∀ q ∈ t.dates, q ∈ setdefault t.dates day load :=
          fun q hq => mem_foldl_setdefault_of_mem [day] t.dates load q hq
        by_cases hev : t.ever_done = true
        · rw [if_neg (by simp [hev])] at hok
          by_cases hlt : t.last_time < day
          · rw [if_pos hlt] at hok
            have ht' := (Except.ok.inj hok).symm
            subst ht'
            refine ⟨hA, iff_of_true hev (Or.inl hne), ?_, ?_,
              fun _ hnil => absurd hnil hne⟩
            · intro q hq
              rcases hmem q hq with h | h
              · exact le_trans (hC q h) (le_of_lt hlt)
              · simp [h]
            · intro _ _
              rcases hkey with ⟨q, hq, he⟩
              exact ⟨q, hq, he⟩
          · rw [if_neg hlt] at hok
            have ht' := (Except.ok.inj hok).symm
            subst ht'
            have hdne : t.dates ≠ [] := by
              intro hnil
              have := hE hev hnil
              omega
            refine ⟨hA, iff_of_true hev (Or.inl hne), ?_, ?_,
              fun _ hnil => absurd hnil hne⟩
            · intro q hq
              rcases hmem q hq with h | h
              · exact hC q h
              · simp only [h]
                exact not_lt.mp hlt
            · intro _ _
              rcases hD hev hdne with ⟨q, hq, he⟩
              exact ⟨q, hsup q hq, he⟩
        · rw [if_pos (by simp [hev])] at hok
          have ht' := (Except.ok.inj hok).symm
          subst ht'
          have hdnil : t.dates = [] := by
            by_contra hdne
            exact hev (hB.mpr (Or.inl hdne))
          refine ⟨hA, iff_of_true rfl (Or.inl hne), ?_, ?_,
            fun _ hnil => absurd hnil hne⟩
          · intro q hq
            rcases hmem q hq with h | h
            · rw [hdnil] at h; cases h
            · simp [h]
          · intro _ _
            rcases hkey with ⟨q, hq, he⟩
            exact ⟨q, hq, he⟩
  | coll days =>
      simp only [TaskHistory.add_date] at hok
      by_cases hlen : days.length = 0
      · rw [if_pos hlen] at hok
        have ht' := (Except.ok.inj hok).symm
        subst ht'
        exact ⟨hA, hB, hC, hD, hE⟩
      · rw [if_neg hlen] at hok
        rcases hc : t.add_date_check_all days load with e | uu
        · rw [hc] at hok; cases hok
        · rw [hc] at hok
          have hdays : ∀ d ∈ days, t.begin_on ≤ d := fun d hd =>
            add_date_check_ok_le t d load (add_date_check_all_ok t days load hc d hd)
          have hdne : days ≠ [] := fun hn => hlen (by rw [hn]; rfl)
          have hpm : listMax days ∈ days := listMax_mem days hdne
          set sdl := load / (days.length : Rat) with hsdl
          have hkey : ∃ q ∈ days.foldl (fun ds d => setdefault ds d sdl) t.dates,
              q.1 = listMax days :=
            key_mem_foldl_setdefault days t.dates sdl (listMax days) (Or.inl hpm)
          have hne : days.foldl (fun ds d => setdefault ds d sdl) t.dates ≠ [] := by
            rcases hkey with ⟨q, hq, _⟩
            intro hnil
            rw [hnil] at hq
            cases hq
          have hmem : ∀ q ∈ days.foldl (fun ds d => setdefault ds d sdl) t.dates,
              q ∈ t.dates ∨ q.1 ∈ days :=
            fun q hq => mem_foldl_setdefault days t.dates sdl q hq
          have hsup : ∀ q ∈ t.dates,
              q ∈ days.foldl (fun ds d => setdefault ds d sdl) t.dates :=
            fun q hq => mem_foldl_setdefault_of_mem days t.dates sdl q hq
          by_cases hev : t.ever_done = true
          · rw [if_neg (by simp [hev])] at hok
            by_cases hlt : t.last_time < listMax days
            · rw [if_pos hlt] at hok
              have ht' := (Except.ok.inj hok).symm
              subst ht'
              refine ⟨hA, iff_of_true hev (Or.inl hne), ?_, ?_,
                fun _ hnil => absurd hnil hne⟩
              · intro q hq
                rcases hmem q hq with h | h
                · exact le_trans (hC q h) (le_of_lt hlt)
                · exact le_listMax days q.1 h
              · intro _ _
                rcases hkey with ⟨q, hq, he⟩
                exact ⟨q, hq, he⟩
            · rw [if_neg hlt] at hok
              have ht' := (Except.ok.inj hok).symm
              subst ht'
              have hdne' : t.dates ≠ [] := by
                intro hnil
                have h1 := hE hev hnil
                have h2 := hdays (listMax days) hpm
                omega
              refine ⟨hA, iff_of_true hev (Or.inl hne), ?_, ?_,
              fun _ hnil => absurd hnil hne⟩
              · intro q hq
                rcases hmem q hq with h | h
                · exact hC q h
                · exact le_trans (le_listMax days q.1 h) (not_lt.mp hlt)
              · intro _ _
                rcases hD hev hdne' with ⟨q, hq, he⟩
                exact ⟨q, hsup q hq, he⟩
          · rw [if_pos (by simp [hev])] at hok
            have ht' := (Except.ok.inj hok).symm
            subst ht'
            have hdnil : t.dates = [] := by
              by_contra hdne'
              exact hev (hB.mpr (Or.inl hdne'))
            refine ⟨hA, iff_of_true rfl (Or.inl hne), ?_, ?_,
              fun _ hnil => absurd hnil hne⟩
            · intro q hq
              rcases hmem q hq with h | h
              · rw [hdnil] at h; cases h
              · exact le_listMax days q.1 h
            · intro _ _
              rcases hkey with ⟨q, hq, he⟩
              exact ⟨q, hq, he⟩

/-- The invariant is preserved by successful `rm_date` calls. -/
theorem task_inv_rm_date (t t' : TaskHistory) (p : Period)
    (hI : TaskInv t) (hok : t.rm_date p = .ok t') : TaskInv t' := by
  obtain ⟨hA, hB, hC, hD, hE⟩ := hI
  cases p with
  | single day =>
      simp only [TaskHistory.rm_date, TaskHistory.rm_date_single] at hok
      rcases hc : t.rm_date_check day with e | uu
      · rw [hc] at hok; cases hok
      · rw [hc] at hok
        have hnc : ¬(day = t.last_time ∧ 0 < t.n_until_begin ∧
            t.dates.all (fun q => q.1 == t.last_time) = true) := by
          intro hcond
          simp only [TaskHistory.rm_date_check] at hc
          by_cases h1 : day < t.begin_on
          · rw [if_pos h1] at hc; cases hc
          · rw [if_neg h1, if_pos hcond] at hc
            cases hc
        by_cases hk : hasKey t.dates day
        · rw [if_neg (by simp [hk])] at hok
          have hdne : t.dates ≠ [] := by
            intro hnil
            rw [hnil] at hk
            simp [hasKey] at hk
          have hever : t.ever_done = true := hB.mpr (Or.inl hdne)
          by_cases hdl : day = t.last_time
          · rw [if_pos hdl] at hok
            by_cases hnil : eraseKey t.dates day ≠ []
            · rw [if_pos hnil] at hok
              have ht' := (Except.ok.inj hok).symm
              subst ht'
              refine ⟨hA, iff_of_true hever (Or.inl hnil), ?_, ?_,
                fun _ hn => absurd hn hnil⟩
              · intro q hq
                exact le_maxKey _ q hq
              · intro _ _
                exact maxKey_mem _ hnil
            · rw [if_neg hnil] at hok
              push_neg at hnil
              rw [hnil] at hok
              have ht' := (Except.ok.inj hok).symm
              subst ht'
              have hall : t.dates.all (fun q => q.1 == t.last_time) = true := by
                rw [List.all_eq_true]
                intro q hq
                have := eraseKey_eq_nil_all t.dates day hnil q hq
                simp [beq_iff_eq, this, hdl]
              have hn0 : ¬ 0 < t.n_until_begin :=
                fun hpos => hnc ⟨hdl, hpos, hall⟩
              refine ⟨hA, iff_of_false Bool.false_ne_true ?_, ?_, ?_, ?_⟩
              · rintro (h | h)
                · exact h rfl
                · exact hn0 h
              · intro q hq
                cases hq
              · intro h
                exact absurd h Bool.false_ne_true
              · intro h
                exact absurd h Bool.false_ne_true
          · rw [if_neg hdl] at hok
            have ht' := (Except.ok.inj hok).symm
            subst ht'
            rcases hD hever hdne with ⟨q, hq, hqe⟩
            have hqds : q ∈ eraseKey t.dates day :=
              (mem_eraseKey _ _ q).mpr ⟨hq, by rw [hqe]; exact fun h => hdl h.symm⟩
            have hdsne : eraseKey t.dates day ≠ [] := by
              intro hnil
              rw [hnil] at hqds
              cases hqds
            refine ⟨hA, iff_of_true hever (Or.inl hdsne), ?_, ?_,
              fun _ hn => absurd hn hdsne⟩
            · intro q' hq'
              exact hC q' ((mem_eraseKey _ _ q').mp hq').1
            · intro _ _
              exact ⟨q, hqds, hqe⟩
        · rw [if_pos (by simp [hk])] at hok
          cases hok
  | coll l =>
      simp only [TaskHistory.rm_date] at hok
      rcases hrun : t.rm_date_list_run l with ⟨s2, oe⟩
      rw [hrun] at hok
      cases oe with
      | some e =>
          have hok2 : (Except.error e : Except PyErr TaskHistory) = .ok t' := hok
          cases hok2
      | none =>
          have hok2 : (Except.ok s2 : Except PyErr TaskHistory) = .ok t' := hok
          have hts : t' = s2 := (Except.ok.inj hok2).symm
          subst hts
          simp only [TaskHistory.rm_date_list_run] at hrun
          by_cases hall : l.all (fun d => decide (t.begin_on ≤ d)) = true
          · rw [if_neg (by simp [hall])] at hrun
            by_cases huns : t.last_time ∈ dedupFirst l ∧ 0 < t.n_until_begin ∧
                t.dates.all (fun q => decide (q.1 ∈ dedupFirst l)) = true
            · rw [if_pos huns] at hrun
              injection hrun with h1 h2
              cases h2
            · rw [if_neg huns] at hrun
              rcases hdel : TaskHistory.delLoop t.dates (dedupFirst l) with ⟨ds, de⟩
              rw [hdel] at hrun
              cases de with
              | some e =>
                  have hrun2 : (({ t with dates := ds } : TaskHistory), some e)
                      = (t', (none : Option PyErr)) := hrun
                  injection hrun2 with h1 h2
                  cases h2
              | none =>
                  have hrun2 : (t.rm_date_finish (dedupFirst l) ds,
                      (none : Option PyErr)) = (t', none) := hrun
                  injection hrun2 with h1 h2
                  rw [← h1]
                  have hds := delLoop_ok_eq (dedupFirst l) t.dates ds hdel
                  have hsub : ∀ q ∈ ds, q ∈ t.dates ∧ q.1 ∉ dedupFirst l := by
                    intro q hq
                    rw [hds] at hq
                    have := List.mem_filter.mp hq
                    exact ⟨this.1, by simpa using this.2⟩
                  by_cases hltm : t.last_time ∈ dedupFirst l
                  · by_cases hdne : ds ≠ []
                    · rw [TaskHistory.rm_date_finish, if_pos hltm, if_pos hdne]
                      have hdates_ne : t.dates ≠ [] := by
                        intro hnil
                        rcases List.exists_mem_of_ne_nil ds hdne with ⟨q, hq⟩
                        have := (hsub q hq).1
                        rw [hnil] at this
                        cases this
                      have hever : t.ever_done = true := hB.mpr (Or.inl hdates_ne)
                      refine ⟨hA, iff_of_true hever (Or.inl hdne), ?_, ?_,
                        fun _ hn => absurd hn hdne⟩
                      · intro q hq
                        exact le_maxKey _ q hq
                      · intro _ _
                        exact maxKey_mem _ hdne
                    · push_neg at hdne
                      rw [TaskHistory.rm_date_finish, if_pos hltm,
                        if_neg (by simp [hdne]), hdne]
                      have hallin : t.dates.all
                          (fun q => decide (q.1 ∈ dedupFirst l)) = true := by
                        rw [List.all_eq_true]
                        intro q hq
                        by_contra hno
                        have hq' : q ∈ t.dates.filter
                            (fun p => decide (p.1 ∉ dedupFirst l)) :=
                          List.mem_filter.mpr ⟨hq, by simpa using hno⟩
                        rw [← hds, hdne] at hq'
                        cases hq'
                      have hn0 : ¬ 0 < t.n_until_begin :=
                        fun hpos => huns ⟨hltm, hpos, hallin⟩
                      refine ⟨hA, iff_of_false Bool.false_ne_true ?_, ?_, ?_, ?_⟩
                      · rintro (h | h)
                        · exact h rfl
                        · exact hn0 h
                      · intro q hq
                        cases hq
                      · intro h
                        exact absurd h Bool.false_ne_true
                      · intro h
                        exact absurd h Bool.false_ne_true
                  · rw [TaskHistory.rm_date_finish, if_neg hltm]
                    refine ⟨hA, ?_, ?_, ?_, ?_⟩
                    · show t.ever_done = true ↔ ds ≠ [] ∨ 0 < t.n_until_begin
                      constructor
                      · intro hev
                        rcases hB.mp hev with hdne' | hn
                        · rcases hD hev hdne' with ⟨q, hq, hqe⟩
                          have hq' : q ∈ ds := by
                            rw [hds]
                            exact List.mem_filter.mpr ⟨hq, by simp [hqe, hltm]⟩
                          refine Or.inl ?_
                          intro hnil
                          rw [hnil] at hq'
                          cases hq'
                        · exact Or.inr hn
                      · rintro (hdne' | hn)
                        · refine hB.mpr (Or.inl ?_)
                          intro hnil
                          rcases List.exists_mem_of_ne_nil ds hdne' with ⟨q, hq⟩
                          have := (hsub q hq).1
                          rw [hnil] at this
                          cases this
                        · exact hB.mpr (Or.inr hn)
                    · intro q hq
                      exact hC q (hsub q hq).1
                    · show t.ever_done = true → ds ≠ [] →
                        ∃ q ∈ ds, q.1 = t.last_time
                      intro hev hdne'
                      have hdates_ne : t.dates ≠ [] := by
                        intro hnil
                        rcases List.exists_mem_of_ne_nil ds hdne' with ⟨q, hq⟩
                        have := (hsub q hq).1
                        rw [hnil] at this
                        cases this
                      rcases hD hev hdates_ne with ⟨q, hq, hqe⟩
                      refine ⟨q, ?_, hqe⟩
                      rw [hds]
                      exact List.mem_filter.mpr ⟨hq, by simp [hqe, hltm]⟩
                    · show t.ever_done = true → ds = [] →
                        t.last_time < t.begin_on
                      intro hev hnil
                      by_cases hdates_nil : t.dates = []
                      · exact hE hev hdates_nil
                      · rcases hD hev hdates_nil with ⟨q, hq, hqe⟩
                        have hq' : q ∈ ds := by
                          rw [hds]
                          exact List.mem_filter.mpr ⟨hq, by simp [hqe, hltm]⟩
                        rw [hnil] at hq'
                        cases hq'
          · rw [if_pos (by simp [hall])] at hrun
            injection hrun with h1 h2
            cases h2

/-- Facts recorded by a passing `set_situation_check`. -/
theorem set_situation_check_ok (t : TaskHistory) (u n : Int)
    (ltb st : Option Int) (h : t.set_situation_check u n ltb st = .ok ()) :
    t.begin_on ≤ u ∧
    (ltb = none → ¬(0 < n ∧ t.ever_done = false)) ∧
    (∀ lv, ltb = some lv → lv ≤ u ∧ n ≠ 0) := by
  cases ltb with
  | none =>
      simp only [TaskHistory.set_situation_check] at h
      by_cases h1 : u < t.begin_on
      · rw [if_pos h1] at h; cases h
      · rw [if_neg h1] at h
        refine ⟨not_lt.mp h1, fun _ => ?_, fun lv hlv => by cases hlv⟩
        by_cases h2 : 0 < n ∧ t.ever_done = false
        · rw [if_pos h2] at h; cases h
        · exact h2
  | some lv' =>
      simp only [TaskHistory.set_situation_check] at h
      by_cases h1 : u < t.begin_on
      · rw [if_pos h1] at h; cases h
      · rw [if_neg h1] at h
        by_cases h2 : u < lv'
        · rw [if_pos h2] at h; cases h
        · rw [if_neg h2] at h
          by_cases h3 : n = 0
          · rw [if_pos h3] at h; cases h
          · refine ⟨not_lt.mp h1, ?_, ?_⟩
            · intro hc
              cases hc
            · intro lv hlv
              have h4 : lv = lv' := by injection hlv with h4; exact h4.symm
              subst h4
              exact ⟨not_lt.mp h2, h3⟩

/-- Shape of the non-resetting final state of `set_situation_on_period`: the
invariant holds whenever the new `ever_done` flag is true, the new
`last_time` dominates the old one and either equals it or lies in the folded
range. -/
theorem task_inv_shape (t : TaskHistory) (u n' : Int) (load' : Rat)
    (eb : Bool) (el : Int)
    (hB : t.ever_done = true ↔ (t.dates ≠ [] ∨ 0 < t.n_until_begin))
    (hC : ∀ p ∈ t.dates, p.1 ≤ t.last_time)
    (hD : t.ever_done = true → t.dates ≠ [] → ∃ p ∈ t.dates, p.1 = t.last_time)
    (hE : t.ever_done = true → t.dates = [] → t.last_time < t.begin_on)
    (hub : t.begin_on ≤ u)
    (hn' : 0 ≤ n')
    (heb : eb = true)
    (hel1 : t.ever_done = true → t.last_time ≤ el)
    (hel2 : t.ever_done = true → el = t.last_time ∨ (el ≤ u ∧ t.last_time ≤ u))
    (hel3 : t.ever_done = false → el ≤ u)
    (hcond : ¬(n' = 0 ∧ t.dates.filter (fun p => decide (u < p.1)) = [])) :
    TaskInv ⟨eb, u + 1, n', load', el,
      t.dates.filter (fun p => decide (u < p.1))⟩ := by
  refine ⟨hn', ?_, ?_, ?_, ?_⟩
  · show eb = true ↔
      (t.dates.filter (fun p => decide (u < p.1)) ≠ [] ∨ 0 < n')
    refine iff_of_true heb ?_
    by_contra hcon
    push_neg at hcon
    exact hcond ⟨by omega, hcon.1⟩
  · intro q hq
    have hqm := List.mem_filter.mp hq
    by_cases hev : t.ever_done = true
    · exact le_trans (hC q hqm.1) (hel1 hev)
    · have hnil : t.dates = [] := by
        by_contra hne
        exact hev (hB.mpr (Or.inl hne))
      rw [hnil] at hqm
      exact absurd hqm.1 (List.not_mem_nil q)
  · show eb = true → t.dates.filter (fun p => decide (u < p.1)) ≠ [] →
      ∃ p ∈ t.dates.filter (fun p => decide (u < p.1)), p.1 = el
    intro _ hdne
    rcases List.exists_mem_of_ne_nil _ hdne with ⟨q, hq⟩
    have hqm := List.mem_filter.mp hq
    have hdatesne : t.dates ≠ [] := by
      intro h0
      rw [h0] at hqm
      exact absurd hqm.1 (List.not_mem_nil q)
    have hev : t.ever_done = true := hB.mpr (Or.inl hdatesne)
    rcases hD hev hdatesne with ⟨p, hp, hpe⟩
    have huq : u < q.1 := by simpa using hqm.2
    have hult : u < t.last_time := lt_of_lt_of_le huq (hC q hqm.1)
    have hel : el = t.last_time := by
      rcases hel2 hev with h | h
      · exact h
      · omega
    refine ⟨p, List.mem_filter.mpr ⟨hp, by simp [hpe]; omega⟩, ?_⟩
    rw [hel]
    exact hpe
  · intro _ hnil
    show el < u + 1
    have hle : el ≤ u := by
      cases hb : t.ever_done with
      | true =>
          rcases hel2 hb with h | h
          · rw [h]
            by_cases hdn : t.dates = []
            · have := hE hb hdn
              omega
            · rcases hD hb hdn with ⟨p, hp, hpe⟩
              have := filter_gt_eq_nil_all t.dates u hnil p hp
              omega
          · exact h.1
      | false => exact hel3 hb
    omega

/-- The invariant holds for the fully-reset final state of
`set_situation_on_period`. -/
theorem task_inv_reset (u n' : Int) (load' : Rat) (ds : List Entry)
    (hn0 : n' = 0) (hds : ds = []) :
    TaskInv ⟨false, u + 1, n', load', dateMax, ds⟩ := by
  subst hn0
  subst hds
  refine ⟨le_refl 0, iff_of_false Bool.false_ne_true ?_, ?_, ?_, ?_⟩
  · rintro (h | h)
    · exact h rfl
    · exact absurd h (lt_irrefl 0)
  · intro q hq
    exact absurd hq (List.not_mem_nil q)
  · intro h
    exact absurd h Bool.false_ne_true
  · intro h
    exact absurd h Bool.false_ne_true

/-- The invariant is preserved by successful `set_situation_on_period` calls
with nonnegative `n_days`. -/
theorem task_inv_set_situation (t t' : TaskHistory) (u n : Int) (load : Rat)
    (ltb st : Option Int) (hn : 0 ≤ n) (hI : TaskInv t)
    (hok : t.set_situation_on_period u n load ltb st = .ok t') : TaskInv t' := by
  obtain ⟨hA, hB, hC, hD, hE⟩ := hI
  rcases hchk : t.set_situation_check u n ltb st with e | uu
  · simp only [TaskHistory.set_situation_on_period, hchk] at hok
    cases hok
  · cases uu
    obtain ⟨hub, hnone, hsome⟩ := set_situation_check_ok t u n ltb st hchk
    cases st with
    | none =>
        cases ltb with
        | none =>
            simp only [TaskHistory.set_situation_on_period, hchk] at hok
            by_cases hfin : n = 0 ∧
                t.dates.filter (fun p => decide (u < p.1)) = []
            · rw [if_pos hfin] at hok
              have ht' := (Except.ok.inj hok).symm
              subst ht'
              exact task_inv_reset u n load _ hfin.1 hfin.2
            · rw [if_neg hfin] at hok
              have ht' := (Except.ok.inj hok).symm
              subst ht'
              have heb : t.ever_done = true := by
                cases hb : t.ever_done with
                | true => rfl
                | false =>
                    exfalso
                    have hdn : t.dates = [] := by
                      by_contra hx
                      have := hB.mpr (Or.inl hx)
                      rw [hb] at this
                      cases this
                    have hn0 : n = 0 := by
                      by_contra hnz
                      exact hnone rfl ⟨lt_of_le_of_ne hn (Ne.symm hnz), hb⟩
                    exact hfin ⟨hn0, by rw [hdn]; rfl⟩
              exact task_inv_shape t u n load t.ever_done t.last_time
                hB hC hD hE hub hn heb (fun _ => le_refl _)
                (fun _ => Or.inl rfl)
                (fun hf => by rw [hf] at heb; exact absurd heb Bool.false_ne_true)
                hfin
        | some lv =>
            obtain ⟨hlu, hnz⟩ := hsome lv rfl
            have hnpos : 0 < n := lt_of_le_of_ne hn (Ne.symm hnz)
            simp only [TaskHistory.set_situation_on_period, hchk] at hok
            by_cases hev : t.ever_done = true
            · rw [if_pos hev] at hok
              by_cases hlt : t.last_time < lv
              · rw [if_pos hlt, if_neg (fun hc => hnz hc.1)] at hok
                have ht' := (Except.ok.inj hok).symm
                subst ht'
                exact task_inv_shape t u n load true lv hB hC hD hE hub hn rfl
                  (fun _ => le_of_lt hlt)
                  (fun _ => Or.inr ⟨hlu, le_trans (le_of_lt hlt) hlu⟩)
                  (fun hf => by rw [hf] at hev; exact absurd hev Bool.false_ne_true)
                  (fun hc => hnz hc.1)
              · rw [if_neg hlt, if_neg (fun hc => hnz hc.1)] at hok
                have ht' := (Except.ok.inj hok).symm
                subst ht'
                exact task_inv_shape t u n load true t.last_time hB hC hD hE hub hn
                  rfl (fun _ => le_refl _) (fun _ => Or.inl rfl)
                  (fun hf => by rw [hf] at hev; exact absurd hev Bool.false_ne_true)
                  (fun hc => hnz hc.1)
            · rw [if_neg hev, if_pos hnpos, if_neg (fun hc => hnz hc.1)] at hok
              have ht' := (Except.ok.inj hok).symm
              subst ht'
              exact task_inv_shape t u n load true lv hB hC hD hE hub hn rfl
                (fun h => absurd h hev) (fun h => absurd h hev)
                (fun _ => hlu) (fun hc => hnz hc.1)
    | some s0 =>
        have hnn : 0 ≤ t.n_until_begin + n := by omega
        cases ltb with
        | none =>
            simp only [TaskHistory.set_situation_on_period, hchk] at hok
            by_cases hfin : t.n_until_begin + n = 0 ∧
                t.dates.filter (fun p => decide (u < p.1)) = []
            · rw [if_pos hfin] at hok
              have ht' := (Except.ok.inj hok).symm
              subst ht'
              exact task_inv_reset u _ load _ hfin.1 hfin.2
            · rw [if_neg hfin] at hok
              have ht' := (Except.ok.inj hok).symm
              subst ht'
              have heb : t.ever_done = true := by
                cases hb : t.ever_done with
                | true => rfl
                | false =>
                    exfalso
                    have hdn : t.dates = [] := by
                      by_contra hx
                      have := hB.mpr (Or.inl hx)
                      rw [hb] at this
                      cases this
                    have hn0 : n = 0 := by
                      by_contra hnz
                      exact hnone rfl ⟨lt_of_le_of_ne hn (Ne.symm hnz), hb⟩
                    have htn0 : t.n_until_begin = 0 := by
                      by_contra htz
                      have := hB.mpr (Or.inr (lt_of_le_of_ne hA (Ne.symm htz)))
                      rw [hb] at this
                      cases this
                    exact hfin ⟨by omega, by rw [hdn]; rfl⟩
              exact task_inv_shape t u (t.n_until_begin + n) (t.load_until_begin + load)
                t.ever_done t.last_time hB hC hD hE hub hnn heb
                (fun _ => le_refl _) (fun _ => Or.inl rfl)
                (fun hf => by rw [hf] at heb; exact absurd heb Bool.false_ne_true)
                hfin
        | some lv =>
            obtain ⟨hlu, hnz⟩ := hsome lv rfl
            have hnpos : 0 < n := lt_of_le_of_ne hn (Ne.symm hnz)
            have hfinneg : ¬(t.n_until_begin + n = 0 ∧
                t.dates.filter (fun p => decide (u < p.1)) = []) := by
              intro hc
              omega
            simp only [TaskHistory.set_situation_on_period, hchk] at hok
            by_cases hev : t.ever_done = true
            · rw [if_pos hev] at hok
              by_cases hlt : t.last_time < lv
              · rw [if_pos hlt, if_neg hfinneg] at hok
                have ht' := (Except.ok.inj hok).symm
                subst ht'
                exact task_inv_shape t u (t.n_until_begin + n)
                  (t.load_until_begin + load) true lv hB hC hD hE hub hnn rfl
                  (fun _ => le_of_lt hlt)
                  (fun _ => Or.inr ⟨hlu, le_trans (le_of_lt hlt) hlu⟩)
                  (fun hf => by rw [hf] at hev; exact absurd hev Bool.false_ne_true)
                  hfinneg
              · rw [if_neg hlt, if_neg hfinneg] at hok
                have ht' := (Except.ok.inj hok).symm
                subst ht'
                exact task_inv_shape t u (t.n_until_begin + n)
                  (t.load_until_begin + load) true t.last_time hB hC hD hE hub hnn
                  rfl (fun _ => le_refl _) (fun _ => Or.inl rfl)
                  (fun hf => by rw [hf] at hev; exact absurd hev Bool.false_ne_true)
                  hfinneg
            · rw [if_neg hev, if_pos hnpos, if_neg hfinneg] at hok
              have ht' := (Except.ok.inj hok).symm
              subst ht'
              exact task_inv_shape t u (t.n_until_begin + n)
                (t.load_until_begin + load) true lv hB hC hD hE hub hnn rfl
                (fun h => absurd h hev) (fun h => absurd h hev)
                (fun _ => hlu) hfinneg

/-! ## Claims -/

/-- Claim C2: refuted by the code as written.  At the concrete day
2023-01-04 (a Wednesday, `weekdayMon = 2`), `Week.week_of_day` returns the
bucket whose `__monday` field is the ordinal of 2023-01-08 — the *Sunday*
ending the week, because `strptime`'s `%w` value `0` denotes Sunday — so the
day fails its own bucket's membership test and the bucket's first day is not
the Monday on or before it. -/
theorem week_of_day_not_containing_its_day :
    Week.containsDay (Week.week_of_day ⟨2023, 1, 4⟩) ⟨2023, 1, 4⟩ = false ∧
    (Week.week_of_day ⟨2023, 1, 4⟩).monday = toOrdinal ⟨2023, 1, 8⟩ ∧
    weekdayMon ⟨2023, 1, 8⟩ = 6 ∧
    weekdayMon ⟨2023, 1, 4⟩ = 2 := by decide

/-- Claim C1, counterexample: for the fresh ledger started on day 0,
`days_nb_until 0` answers 1; compacting with `until = 0` and that exact
presence count succeeds, but afterwards `days_nb_until 0` raises the
before-watermark error instead of returning 1 (day 0 is now strictly before
the advanced watermark), so the claim as stated fails at `d = D`. -/
theorem compaction_breaks_query_at_D :
    Presence.days_nb_until (Presence.init 0) 0 = .ok 1 ∧
    Presence.set_presence_nb_between (Presence.init 0) 0 1 none =
      .ok ⟨∅, 1, 1⟩ ∧
    Presence.days_nb_until ⟨∅, 1, 1⟩ 0 = .error .beforeAbsenceBegin :=
  ⟨rfl, rfl, rfl⟩

/-- Claim C1, amended: compacting at `D ≥ watermark` with the presence count
the ledger itself reports for the folded range preserves `days_nb_until` for
every day strictly after `D` (at or after the new watermark `D + 1`), while
every day `≤ D` is rejected with the before-watermark error after the
compaction. -/
theorem compaction_preserves_counts (s s' : Presence) (D d n : Int)
    (hD : s.absences_begin_on ≤ D)
    (hn : s.days_nb_until D = .ok n)
    (hc : s.set_presence_nb_between D n none = .ok s') :
    (D < d → s'.days_nb_until d = s.days_nb_until d) ∧
    (d ≤ D → s'.days_nb_until d = .error .beforeAbsenceBegin) := by
  have hnD : ¬ D < s.absences_begin_on := not_lt.mpr hD
  simp only [Presence.days_nb_until, if_neg hnD] at hn
  have hnval : (D - s.absences_begin_on) + 1
      - ((s.absences.filter (fun a => a ≤ D)).card : Int)
      + s.presences_before_begin = n := Except.ok.inj hn
  simp only [Presence.set_presence_nb_between, if_neg hnD] at hc
  have hs' : s' = ⟨s.absences.filter (fun day => ¬ day ≤ D), D + 1, n⟩ :=
    (Except.ok.inj hc).symm
  subst hs'
  constructor
  · intro hd
    have h1 : ¬ d < D + 1 := by omega
    have h2 : ¬ d < s.absences_begin_on := by omega
    simp only [Presence.days_nb_until, if_neg h1, if_neg h2, Except.ok.injEq]
    have hcard := card_filter_le_split s.absences D d (le_of_lt hd)
    have hcard' : ((s.absences.filter (fun a => a ≤ d)).card : Int)
        = ((s.absences.filter (fun a => a ≤ D)).card : Int)
          + (((s.absences.filter (fun a => ¬ a ≤ D)).filter
              (fun a => a ≤ d)).card : Int) := by exact_mod_cast hcard
    omega
  · intro hd
    have h1 : d < D + 1 := by omega
    simp only [Presence.days_nb_until, if_pos h1]

/-- Claim C1, witness for the amended theorem: a concrete ledger with
absences on days 0 and 2, compacted at `D = 1` with its reported count 1;
the count queried at day 3 is unchanged. -/
theorem compaction_preserves_counts_witness :
    Presence.days_nb_until ⟨{2}, 2, 1⟩ 3 =
      Presence.days_nb_until ⟨{0, 2}, 0, 0⟩ 3 :=
  (compaction_preserves_counts ⟨{0, 2}, 0, 0⟩ ⟨{2}, 2, 1⟩ 1 3 1 (by decide)
    (by decide) (by decide)).1 (by decide)

/-- Claim C5, counterexample: starting from the fresh ledger on day 0 — a
history in which no absence is ever recorded, so the number of absence-days
accrued strictly before any watermark is 0 — a compaction crediting the
1 presence-day of the folded range stores 1 in the aggregate field.
`days_nb_until 1` then answers 2 = (1 - 1) + 1 - 0 + 1, whereas the claim's
reading of the aggregate as absence-days would give (1 - 1) + 1 - 0 + 0 = 1:
the stored aggregate counts presence-days, not absence-days. -/
theorem pre_count_is_presence_days :
    Presence.set_presence_nb_between (Presence.init 0) 0 1 none =
      .ok ⟨∅, 1, 1⟩ ∧
    (⟨∅, 1, 1⟩ : Presence).absences = ∅ ∧
    (⟨∅, 1, 1⟩ : Presence).presences_before_begin = 1 ∧
    Presence.days_nb_until ⟨∅, 1, 1⟩ 1 = .ok 2 ∧
    (2 : Int) ≠ (1 - 1) + 1 - 0 + 0 :=
  ⟨rfl, rfl, rfl, rfl, by decide⟩

/-- Claim C5, amended: for `until ≥ watermark` and a ledger whose exceptions
all lie at or after the watermark (the reachable states, by the C8
invariant), `days_nb_until` returns
`(until - watermark) + 1 - |{e ∈ exceptions : e ≤ until}| + pre_count`,
where `pre_count` is the stored pre-watermark *presence*-day credit: the
returned value equals the number of days in `[watermark, until]` not marked
absent, plus `pre_count`. -/
theorem days_nb_until_formula (s : Presence) (day : Int)
    (h1 : s.absences_begin_on ≤ day)
    (h2 : ∀ a ∈ s.absences, s.absences_begin_on ≤ a) :
    s.days_nb_until day =
      .ok ((((Finset.Icc s.absences_begin_on day).filter
          (fun x => x ∉ s.absences)).card : Int) + s.presences_before_begin) ∧
    s.days_nb_until day =
      .ok ((day - s.absences_begin_on) + 1
        - ((s.absences.filter (fun a => a ≤ day)).card : Int)
        + s.presences_before_begin) := by
  have hnlt : ¬ day < s.absences_begin_on := not_lt.mpr h1
  refine ⟨?_, ?_⟩
  · simp only [Presence.days_nb_until, if_neg hnlt, Except.ok.injEq]
    have hinter : (Finset.Icc s.absences_begin_on day).filter
        (fun x => x ∈ s.absences) = s.absences.filter (fun a => a ≤ day) := by
      ext x
      simp only [Finset.mem_filter, Finset.mem_Icc]
      constructor
      · rintro ⟨⟨_, hxd⟩, hxa⟩
        exact ⟨hxa, hxd⟩
      · rintro ⟨hxa, hxd⟩
        exact ⟨⟨h2 x hxa, hxd⟩, hxa⟩
    have hsplit := Finset.filter_card_add_filter_neg_card_eq_card
      (s := Finset.Icc s.absences_begin_on day) (p := fun x => x ∈ s.absences)
    rw [hinter] at hsplit
    have hIcc : ((Finset.Icc s.absences_begin_on day).card : Int)
        = day + 1 - s.absences_begin_on :=
      Int.card_Icc_of_le s.absences_begin_on day (by omega)
    have hsplit' : ((s.absences.filter (fun a => a ≤ day)).card : Int)
        + (((Finset.Icc s.absences_begin_on day).filter
            (fun x => x ∉ s.absences)).card : Int)
        = ((Finset.Icc s.absences_begin_on day).card : Int) := by
      exact_mod_cast hsplit
    omega
  · simp only [Presence.days_nb_until, if_neg hnlt]

/-- Claim C5, witness for the amended theorem: watermark 1, absences on days
2 and 5, aggregate credit 3; both forms give 6 at day 4. -/
theorem days_nb_until_formula_witness :
    Presence.days_nb_until ⟨{2, 5}, 1, 3⟩ 4 =
      .ok ((((Finset.Icc (1 : Int) 4).filter
          (fun x => x ∉ ({2, 5} : Finset Int))).card : Int) + 3) ∧
    Presence.days_nb_until ⟨{2, 5}, 1, 3⟩ 4 =
      .ok ((4 - 1) + 1
        - ((({2, 5} : Finset Int).filter (fun a => a ≤ (4 : Int))).card : Int)
        + 3) :=
  days_nb_until_formula ⟨{2, 5}, 1, 3⟩ 4 (by decide) (by decide)

/-- Claim C6, counterexample: after `set_situation_on_period` raises the
task-history watermark to day 6, the queries `days_nb_until` and `load_until`
at day 3 — strictly before the watermark — return values (0 and 0) instead of
raising: neither performs any watermark check in the source. -/
theorem task_day_count_ignores_watermark :
    TaskHistory.set_situation_on_period TaskHistory.init 5 0 0 none none =
      .ok ⟨false, 6, 0, 0, dateMax, []⟩ ∧
    (3 : Int) < (6 : Int) ∧
    TaskHistory.days_nb_until ⟨false, 6, 0, 0, dateMax, []⟩ 3 = 0 ∧
    TaskHistory.load_until ⟨false, 6, 0, 0, dateMax, []⟩ 3 = 0 :=
  ⟨rfl, by decide, rfl, by simp [TaskHistory.load_until]⟩

/-- Claim C6, amended: every watermark-checked operation — all the `Presence`
queries and mutations, and the `TaskHistory` add/remove mutations — raises
the corresponding before-watermark error on a date strictly before the
ledger's watermark; the `TaskHistory` aggregate queries `days_nb_until` and
`load_until` are the exception in the code: they perform no watermark check
(see the counterexample). -/
theorem before_watermark_always_raises (s : Presence) (t : TaskHistory)
    (day : Int) (load : Rat)
    (hs : day < s.absences_begin_on) (ht : day < t.begin_on) :
    s.add_absence (.single day) = .error .beforeAbsenceBegin ∧
    s.rm_absence (.single day) = .error .beforeAbsenceBegin ∧
    s.on_period day = .error .beforeAbsenceBegin ∧
    s.not_on_period day = .error .beforeAbsenceBegin ∧
    s.days_nb_until day = .error .beforeAbsenceBegin ∧
    t.add_date (.single day) load = .error .beforeBegin ∧
    t.rm_date (.single day) = .error .beforeBegin := by
  refine ⟨?_, ?_, ?_, ?_, ?_, ?_, ?_⟩
  · simp [Presence.add_absence, if_pos hs]
  · simp [Presence.rm_absence, if_pos hs]
  · simp [Presence.on_period, if_pos hs]
  · simp [Presence.not_on_period, if_pos hs]
  · simp [Presence.days_nb_until, if_pos hs]
  · simp [TaskHistory.add_date, TaskHistory.add_date_check, if_pos ht]
  · simp [TaskHistory.rm_date, TaskHistory.rm_date_single,
      TaskHistory.rm_date_check, if_pos ht]

/-- Claim C6, witness for the amended theorem: day 3 against a presence
ledger with watermark 5 and a task history with watermark 6. -/
theorem before_watermark_always_raises_witness :
    (Presence.init 5).add_absence (.single 3) = .error .beforeAbsenceBegin ∧
    (Presence.init 5).rm_absence (.single 3) = .error .beforeAbsenceBegin ∧
    (Presence.init 5).on_period 3 = .error .beforeAbsenceBegin ∧
    (Presence.init 5).not_on_period 3 = .error .beforeAbsenceBegin ∧
    (Presence.init 5).days_nb_until 3 = .error .beforeAbsenceBegin ∧
    TaskHistory.add_date ⟨false, 6, 0, 0, dateMax, []⟩ (.single 3) 1 =
      .error .beforeBegin ∧
    TaskHistory.rm_date ⟨false, 6, 0, 0, dateMax, []⟩ (.single 3) =
      .error .beforeBegin :=
  before_watermark_always_raises (Presence.init 5) ⟨false, 6, 0, 0, dateMax, []⟩
    3 1 (by decide) (by decide)

/-- Claim C7 (spec-modelled `forward_begin_to`): for every task history,
`forward_begin_to` succeeds exactly on arguments at or after the current
begin date — raising the begin date and dropping every recorded entry
strictly before it — and rejects exactly the arguments strictly before the
current begin date. -/
theorem forward_begin_to_spec (t : TaskHistory) (day : Int) :
    (day < t.begin_on → t.forward_begin_to day = .error .beforeBegin) ∧
    (t.begin_on ≤ day →
      t.forward_begin_to day =
        .ok { t with begin_on := day,
                     dates := t.dates.filter (fun p => decide (day ≤ p.1)) }) := by
  constructor
  · intro h
    simp [TaskHistory.forward_begin_to, if_pos h]
  · intro h
    simp [TaskHistory.forward_begin_to, if_neg (not_lt.mpr h)]

/-- Claim C7, witness: raising the begin date of a concrete history from 1
to 4 drops the entry on day 3 and keeps the entry on day 5. -/
theorem forward_begin_to_spec_witness :
    TaskHistory.forward_begin_to ⟨true, 1, 0, 0, 5, [(3, 1), (5, 1)]⟩ 4 =
      .ok ⟨true, 4, 0, 0, 5, [(5, 1)]⟩ :=
  (forward_begin_to_spec ⟨true, 1, 0, 0, 5, [(3, 1), (5, 1)]⟩ 4).2 (by decide)

/-- Claim C3: refuted by the code.  Batch removal is not all-or-nothing: on
the task history holding exactly day 10 (reached by `add_date`), the call
`rm_date([10, 20])` raises `KeyError` — day 20 was never recorded — but only
after `del` already removed day 10, leaving a mutated state (its `dates` map
is empty, observable through `days_nb_until`, and `last_time` still points at
the deleted day).  The embedding fixes the unspecified Python set-iteration
order of `days_to_delete` to first-occurrence order; the partial mutation
occurs whenever a present day precedes the missing one. -/
theorem rm_date_partial_mutation :
    TaskHistory.add_date TaskHistory.init (.single 10) 1 =
      .ok ⟨true, 1, 0, 0, 10, [(10, 1)]⟩ ∧
    TaskHistory.rm_date_list_run ⟨true, 1, 0, 0, 10, [(10, 1)]⟩ [10, 20] =
      (⟨true, 1, 0, 0, 10, []⟩, some .keyError) ∧
    (⟨true, 1, 0, 0, 10, []⟩ : TaskHistory) ≠ ⟨true, 1, 0, 0, 10, [(10, 1)]⟩ ∧
    TaskHistory.days_nb_until ⟨true, 1, 0, 0, 10, [(10, 1)]⟩ 10 = 1 ∧
    TaskHistory.days_nb_until ⟨true, 1, 0, 0, 10, []⟩ 10 = 0 :=
  ⟨rfl, rfl, by decide, rfl, rfl⟩

/-- Claim C4: on a task history already marked ever-done, a successful
`add_date` call (single date or collection) never moves `last_time` backward,
and the new `last_time` is the maximum of the old one and the days just
added. -/
theorem add_date_monotone_last_time (t t' : TaskHistory) (p : Period)
    (load : Rat) (h1 : t.ever_done = true)
    (h2 : t.add_date p load = .ok t') :
    t.last_time ≤ t'.last_time ∧
    t'.last_time = (Period.days p).foldl max t.last_time := by
  cases p with
  | single day =>
      simp only [TaskHistory.add_date] at h2
      rcases hc : t.add_date_check day load with e | u
      · rw [hc] at h2; cases h2
      · rw [hc] at h2
        rw [if_neg (by simp [h1])] at h2
        simp only [Period.days, List.foldl_cons, List.foldl_nil]
        by_cases hlt : t.last_time < day
        · rw [if_pos hlt] at h2
          have ht' := Except.ok.inj h2
          subst ht'
          exact ⟨le_of_lt hlt, (max_eq_right (le_of_lt hlt)).symm⟩
        · rw [if_neg hlt] at h2
          have ht' := Except.ok.inj h2
          subst ht'
          exact ⟨le_refl _, (max_eq_left (not_lt.mp hlt)).symm⟩
  | coll days =>
      simp only [TaskHistory.add_date] at h2
      by_cases hlen : days.length = 0
      · rw [if_pos hlen] at h2
        have hnil : days = [] := List.length_eq_zero.mp hlen
        subst hnil
        have ht' := Except.ok.inj h2
        subst ht'
        exact ⟨le_refl _, rfl⟩
      · rw [if_neg hlen] at h2
        rcases hc : t.add_date_check_all days load with e | u
        · rw [hc] at h2; cases h2
        · rw [hc] at h2
          rw [if_neg (by simp [h1])] at h2
          have hne : days ≠ [] := fun hn => hlen (by rw [hn]; rfl)
          have hfold := foldl_max_eq_max_listMax days t.last_time hne
          simp only [Period.days]
          by_cases hlt : t.last_time < listMax days
          · rw [if_pos hlt] at h2
            have ht' := Except.ok.inj h2
            subst ht'
            refine ⟨le_of_lt hlt, ?_⟩
            rw [hfold, max_eq_right (le_of_lt hlt)]
          · rw [if_neg hlt] at h2
            have ht' := Except.ok.inj h2
            subst ht'
            refine ⟨le_refl _, ?_⟩
            rw [hfold, max_eq_left (not_lt.mp hlt)]

/-- Claim C4, witness: adding days 7 and 3 (total load 2) to an ever-done
history with `last_time` 5 moves `last_time` to `max 5 (max 7 3) = 7`. -/
theorem add_date_monotone_last_time_witness :
    (5 : Int) ≤ (7 : Int) ∧
    (7 : Int) = (Period.days (.coll [7, 3])).foldl max 5 := by
  have h := add_date_monotone_last_time ⟨true, 1, 0, 0, 5, []⟩
    ⟨true, 1, 0, 0, 7, [(7, 1), (3, 1)]⟩ (.coll [7, 3]) 2 rfl
    (by simp only [TaskHistory.add_date, TaskHistory.add_date_check_all,
          TaskHistory.add_date_check, setdefault, hasKey, listMax, lookupKey]
        norm_num)
  exact h

/-- Claim C8: in every `Presence` state reachable from construction by
`add_absence`, `rm_absence` and `set_presence_nb_between` calls, every date
stored in the absence-exception set is at or after the current watermark.
(The operations validate before mutating, so raising calls leave the state
unchanged and are covered.) -/
theorem exceptions_ge_watermark (s : Presence) (h : PresenceReach s) :
    ∀ a ∈ s.absences, s.absences_begin_on ≤ a := by
  induction h with
  | init start =>
      intro a ha
      simp [Presence.init] at ha
  | add_absence hr hok ih =>
      rename_i s s' p
      cases p with
      | single d =>
          simp only [Presence.add_absence] at hok
          by_cases hd : d < s.absences_begin_on
          · rw [if_pos hd] at hok; cases hok
          · rw [if_neg hd] at hok
            have hs' := (Except.ok.inj hok).symm
            subst hs'
            intro a ha
            rcases Finset.mem_insert.mp ha with rfl | hmem
            · exact not_lt.mp hd
            · exact ih a hmem
      | coll l =>
          simp only [Presence.add_absence] at hok
          by_cases hall : l.all (fun d => decide (s.absences_begin_on ≤ d))
          · rw [if_pos hall] at hok
            have hs' := (Except.ok.inj hok).symm
            subst hs'
            intro a ha
            rcases Finset.mem_union.mp ha with hmem | hmem
            · exact ih a hmem
            · have hmem' := List.mem_toFinset.mp hmem
              simpa using List.all_eq_true.mp hall a hmem'
          · rw [if_neg hall] at hok; cases hok
  | rm_absence hr hok ih =>
      rename_i s s' p
      cases p with
      | single d =>
          simp only [Presence.rm_absence] at hok
          by_cases hd : d < s.absences_begin_on
          · rw [if_pos hd] at hok; cases hok
          · rw [if_neg hd] at hok
            have hs' := (Except.ok.inj hok).symm
            subst hs'
            intro a ha
            exact ih a (Finset.mem_of_mem_erase ha)
      | coll l =>
          simp only [Presence.rm_absence] at hok
          by_cases hall : l.all (fun d => decide (s.absences_begin_on ≤ d))
          · rw [if_pos hall] at hok
            have hs' := (Except.ok.inj hok).symm
            subst hs'
            intro a ha
            exact ih a (Finset.mem_sdiff.mp ha).1
          · rw [if_neg hall] at hok; cases hok
  | compact hr hok ih =>
      rename_i s s' u n st
      cases st with
      | none =>
          simp only [Presence.set_presence_nb_between] at hok
          by_cases hu : u < s.absences_begin_on
          · rw [if_pos hu] at hok; cases hok
          · rw [if_neg hu] at hok
            have hs' := (Except.ok.inj hok).symm
            subst hs'
            intro a ha
            have hgt := (Finset.mem_filter.mp ha).2
            show u + 1 ≤ a
            omega
      | some stv =>
          simp only [Presence.set_presence_nb_between] at hok
          by_cases hu : u < s.absences_begin_on
          · rw [if_pos hu] at hok; cases hok
          · rw [if_neg hu] at hok
            by_cases h1 : u < stv
            · rw [if_pos h1] at hok; cases hok
            · rw [if_neg h1] at hok
              by_cases h2 : s.absences_begin_on < stv
              · rw [if_pos h2] at hok; cases hok
              · rw [if_neg h2] at hok
                by_cases h3 : stv < s.absences_begin_on ∧
                    s.presences_before_begin ≠ 0
                · rw [if_pos h3] at hok; cases hok
                · rw [if_neg h3] at hok
                  have hs' := (Except.ok.inj hok).symm
                  subst hs'
                  intro a ha
                  have hgt := (Finset.mem_filter.mp ha).2
                  show u + 1 ≤ a
                  omega

/-- Claim C8, witness: the state reached by adding an absence on day 2 to
the fresh ledger started on day 0 keeps its exception at or after the
watermark. -/
theorem exceptions_ge_watermark_witness :
    (⟨{2}, 0, 0⟩ : Presence).absences_begin_on ≤ 2 :=
  exceptions_ge_watermark ⟨{2}, 0, 0⟩
    (@PresenceReach.add_absence (Presence.init 0) ⟨{2}, 0, 0⟩ (.single 2)
      (PresenceReach.init 0) (by decide)) 2 (by decide)

/-- Reachable task-history states satisfy the inductive invariant. -/
theorem task_inv_of_reach (t : TaskHistory) (h : TaskReach t) : TaskInv t := by
  induction h with
  | init => exact task_inv_init
  | add_date hr hok ih => exact task_inv_add_date _ _ _ _ ih hok
  | rm_date hr hok ih => exact task_inv_rm_date _ _ _ ih hok
  | set_situation hr hn hok ih =>
      exact task_inv_set_situation _ _ _ _ _ _ _ hn ih hok

/-- Claim C9: in every task history reachable from the empty history by
successful `add_date`, `rm_date` and `set_situation_on_period` calls with
nonnegative `n_days` arguments, `ever_done` is true exactly when the per-day
dates map is non-empty or the pre-begin aggregate count is positive, and the
`last_time` property raises `NeverDoneError` exactly in the states with no
such evidence. -/
theorem ever_done_iff_evidence (t : TaskHistory) (h : TaskReach t) :
    (t.ever_done = true ↔ (t.dates ≠ [] ∨ 0 < t.n_until_begin)) ∧
    (t.last_time_q = .error .neverDone ↔
      (t.dates = [] ∧ t.n_until_begin = 0)) := by
  obtain ⟨hA, hB, _, _, _⟩ := task_inv_of_reach t h
  refine ⟨hB, ?_, ?_⟩
  · intro he
    cases hb : t.ever_done with
    | true =>
        rw [TaskHistory.last_time_q, if_neg (by simp [hb])] at he
        cases he
    | false =>
        have hnot : ¬(t.dates ≠ [] ∨ 0 < t.n_until_begin) := by
          intro hc
          have := hB.mpr hc
          rw [hb] at this
          cases this
        push_neg at hnot
        exact ⟨hnot.1, by omega⟩
  · rintro ⟨hd, hn0⟩
    have hev : ¬ t.ever_done = true := by
      intro he
      rcases hB.mp he with h1 | h1
      · exact h1 hd
      · omega
    rw [TaskHistory.last_time_q, if_pos hev]

/-- Claim C9, witness: the history reached by recording day 10 with load 1
has `ever_done` true with a non-empty dates map, and its `last_time` query
does not raise. -/
theorem ever_done_iff_evidence_witness :
    ((⟨true, 1, 0, 0, 10, [(10, 1)]⟩ : TaskHistory).ever_done = true ↔
      ((⟨true, 1, 0, 0, 10, [(10, 1)]⟩ : TaskHistory).dates ≠ [] ∨
        0 < (⟨true, 1, 0, 0, 10, [(10, 1)]⟩ : TaskHistory).n_until_begin)) ∧
    ((⟨true, 1, 0, 0, 10, [(10, 1)]⟩ : TaskHistory).last_time_q =
        .error .neverDone ↔
      ((⟨true, 1, 0, 0, 10, [(10, 1)]⟩ : TaskHistory).dates = [] ∧
        (⟨true, 1, 0, 0, 10, [(10, 1)]⟩ : TaskHistory).n_until_begin = 0)) :=
  ever_done_iff_evidence ⟨true, 1, 0, 0, 10, [(10, 1)]⟩
    (@TaskReach.add_date TaskHistory.init ⟨true, 1, 0, 0, 10, [(10, 1)]⟩
      (.single 10) 1 TaskReach.init rfl)

/-- Claim C10, counterexample: with total load 0 the claim fails — adding
days 1 and 2 with load 0 stores the divided per-day load 0/2 = 0, and the
identical second call succeeds (returns the unchanged state) instead of
raising `UpdateLoadError`, because the stored per-day load 0 equals the
undivided total 0. -/
theorem readd_zero_load_succeeds :
    TaskHistory.add_date TaskHistory.init (.coll [1, 2]) 0 =
      .ok ⟨true, 1, 0, 0, 2, [(1, 0), (2, 0)]⟩ ∧
    TaskHistory.add_date ⟨true, 1, 0, 0, 2, [(1, 0), (2, 0)]⟩ (.coll [1, 2]) 0 =
      .ok ⟨true, 1, 0, 0, 2, [(1, 0), (2, 0)]⟩ := by
  constructor
  · simp only [TaskHistory.add_date, TaskHistory.add_date_check_all,
      TaskHistory.add_date_check, TaskHistory.init, setdefault, hasKey, listMax,
      lookupKey, dateMin]
    norm_num
  · simp only [TaskHistory.add_date, TaskHistory.add_date_check_all,
      TaskHistory.add_date_check, setdefault, hasKey, listMax, lookupKey]
    norm_num

/-- Claim C10, amended: for a *nonzero* total load and two or more valid days
none of which is already recorded, the first `add_date` call succeeds and
stores each day with the divided per-day load `load / n`, and the identical
second call raises `UpdateLoadError`, because the re-add check compares the
stored per-day load against the undivided total. -/
theorem divided_load_readd_raises (t : TaskHistory) (days : List Int)
    (load : Rat) (hlen : 2 ≤ days.length)
    (hval : ∀ d ∈ days, t.begin_on ≤ d ∧ hasKey t.dates d = false)
    (hload : load ≠ 0) :
    ∃ t', t.add_date (.coll days) load = .ok t' ∧
      (∀ d ∈ days, lookupKey t'.dates d = some (load / (days.length : Rat))) ∧
      t'.add_date (.coll days) load = .error .updateLoad := by
  obtain ⟨d0, rest, rfl⟩ : ∃ d0 rest, days = d0 :: rest := by
    cases days with
    | nil => simp at hlen
    | cons a b => exact ⟨a, b, rfl⟩
  have hlen0 : ¬ (d0 :: rest).length = 0 := by simp
  have hchk : t.add_date_check_all (d0 :: rest) load = .ok () := by
    apply add_date_check_all_of
    intro d hd
    simp only [TaskHistory.add_date_check]
    rw [if_neg (not_lt.mpr (hval d hd).1), lookupKey_eq_none _ _ (hval d hd).2]
  obtain ⟨t', hok⟩ : ∃ t', t.add_date (.coll (d0 :: rest)) load = .ok t' := by
    simp only [TaskHistory.add_date]
    rw [if_neg hlen0, hchk]
    exact ⟨_, rfl⟩
  have hokx := hok
  simp only [TaskHistory.add_date] at hokx
  rw [if_neg hlen0, hchk] at hokx
  have ht' := (Except.ok.inj hokx).symm
  have hdates : t'.dates = (d0 :: rest).foldl
      (fun ds d => setdefault ds d (load / ((d0 :: rest).length : Rat)))
      t.dates := by
    rw [ht']
    show ((d0 :: rest).foldl _ _) = _
    congr 1
    split
    · rfl
    · split <;> rfl
  have hbegin : t'.begin_on = t.begin_on := by
    rw [ht']
    show (if ¬ t.ever_done then _ else if _ then _ else t).begin_on = t.begin_on
    split
    · rfl
    · split <;> rfl
  have hlook : ∀ d ∈ d0 :: rest,
      lookupKey t'.dates d = some (load / ((d0 :: rest).length : Rat)) := by
    intro d hd
    rw [hdates]
    exact lookupKey_foldl_setdefault_mem _ _ _ _ hd (hval d hd).2
  have hlenq : (2 : Rat) ≤ (((d0 :: rest).length : Nat) : Rat) := by
    exact_mod_cast hlen
  have hneq : load ≠ load / (((d0 :: rest).length : Nat) : Rat) := by
    intro he
    have hnz : (((d0 :: rest).length : Nat) : Rat) ≠ 0 := by
      intro h0
      rw [h0] at hlenq
      norm_num at hlenq
    have h1 : load * (((d0 :: rest).length : Nat) : Rat) = load := by
      conv_lhs => rw [he]
      exact div_mul_cancel₀ load hnz
    have h2 : load * ((((d0 :: rest).length : Nat) : Rat) - 1) = 0 := by
      rw [mul_sub, mul_one, h1, sub_self]
    rcases mul_eq_zero.mp h2 with h3 | h3
    · exact hload h3
    · have h4 : (((d0 :: rest).length : Nat) : Rat) = 1 := sub_eq_zero.mp h3
      rw [h4] at hlenq
      norm_num at hlenq
  refine ⟨t', hok, hlook, ?_⟩
  have hchk2 : t'.add_date_check_all (d0 :: rest) load = .error .updateLoad := by
    simp only [TaskHistory.add_date_check_all]
    have hc0 : t'.add_date_check d0 load = .error .updateLoad := by
      have hble : t'.begin_on ≤ d0 := by
        rw [hbegin]
        exact (hval d0 (List.mem_cons_self d0 rest)).1
      simp only [TaskHistory.add_date_check,
        hlook d0 (List.mem_cons_self d0 rest)]
      rw [if_neg (not_lt.mpr hble), if_pos hneq]
    rw [hc0]
  simp only [TaskHistory.add_date]
  rw [if_neg hlen0, hchk2]

/-- Claim C10, witness for the amended theorem: load 1 over days 1 and 2 on
the empty history stores 1/2 per day and the identical second call raises. -/
theorem divided_load_readd_raises_witness :
    ∃ t', TaskHistory.add_date TaskHistory.init (.coll [1, 2]) 1 = .ok t' ∧
      (∀ d ∈ [(1 : Int), 2], lookupKey t'.dates d =
        some (1 / (([(1 : Int), 2].length : Nat) : Rat))) ∧
      t'.add_date (.coll [1, 2]) 1 = .error .updateLoad :=
  divided_load_readd_raises TaskHistory.init [1, 2] 1 (by decide)
    (by decide) (by norm_num)

end Colocatron
